import Mathlib

/-!
Shallow embedding of the fitnessChronicleServer day-assignment manager
(src/trpc/routers/fitness.ts label router, src/trpc/routers/emoji.ts emoji
router) and of the bulk migration scripts (scripts/convertSets.ts,
scripts/deleteTodaysLogs.ts).

Modelling conventions:
* A user's Firestore subcollections `labels` and `dayAssignments` become two
  lists inside a `Store`.  Firestore auto-generated document ids for
  assignments are modelled as a counter (`nextId`): ids handed out in order,
  never reused; label ids stay strings because they arrive in requests.
* `serverTimestamp` bookkeeping fields (`createdAt`, `updatedAt`) carry no
  logic in the routers and are omitted from the record types.
* `FieldValue.arrayUnion` / `arrayRemove` are the Firestore atomic array
  operations: add-if-absent, remove-all-occurrences.
* Every handler is embedded as a state-passing function
  `Store → Store × Except Err α` (or `Store × Option α` for the queries):
  the first component is the store after all writes that the handler awaited
  before returning or throwing, mirroring the non-transactional write
  sequence of the source.
* A Firestore `update()` on a missing document rejects; this is the
  `.error .notFound` outcome of the previous-label `arrayRemove` step.
-/

structure Label where
  id : String
  label : String
  description : String
  dates : List String
  muscleGroups : List String
  deriving Repr, DecidableEq

structure Assignment where
  id : Nat
  date : String
  labelId : String
  deriving Repr, DecidableEq

structure Store where
  labels : List Label
  assignments : List Assignment
  nextId : Nat
  deriving Repr, DecidableEq

inductive Err where
  | notFound
  deriving Repr, DecidableEq

/-- `firestore...collection('labels').doc(lid).get()`, as the first document
with the given id. -/
def findLabel (st : Store) (lid : String) : Option Label :=
  st.labels.find? (fun l => l.id == lid)

/-- `where('date','==',date).limit(1)` on the `dayAssignments` collection. -/
def findAssignment (st : Store) (date : String) : Option Assignment :=
  st.assignments.find? (fun a => a.date == date)

/-- Firestore `FieldValue.arrayUnion(d)`: append `d` unless already present. -/
def arrayUnion (ds : List String) (d : String) : List String :=
  if d ∈ ds then ds else ds ++ [d]

/-- Firestore `FieldValue.arrayRemove(d)`: remove every occurrence of `d`. -/
def arrayRemove (ds : List String) (d : String) : List String :=
  ds.filter (fun x => x != d)

/-- Apply `f` to the `dates` array of every label document whose id is `lid`
(a Firestore doc-ref update; with unique doc ids this touches one doc). -/
def updateLabelDates (labels : List Label) (lid : String)
    (f : List String → List String) : List Label :=
  labels.map (fun l => if l.id == lid then { l with dates := f l.dates } else l)

structure AssignResult where
  id : Nat
  date : String
  labelId : String
  isUpdate : Bool
  deriving Repr, DecidableEq

/-- The upsert step of `asignLabelToDay` (lines 236-275 of the label router):
update the existing assignment for `date` in place, or create a fresh one.
Returns the store, the assignment id, the `isUpdate` flag and
`previousLabelId`. -/
def upsertAssignment (st : Store) (date labelId : String) :
    Store × Nat × Bool × Option String :=
  match findAssignment st date with
  | some existingDoc =>
      ({ st with assignments := st.assignments.map (fun a =>
           if a.id == existingDoc.id then { a with labelId := labelId } else a) },
       existingDoc.id, true, some existingDoc.labelId)
  | none =>
      ({ st with
           assignments := st.assignments ++ [{ id := st.nextId, date := date, labelId := labelId }],
           nextId := st.nextId + 1 },
       st.nextId, false, none)

/-- `asignLabelToDay` (label router, lines 218-304); `asignEmojiToDay` in the
emoji router is the same code with the `emojis` collection in place of
`labels`.  Steps: label existence check (`NOT_FOUND` otherwise); upsert of
the day assignment found by `where('date','==',date).limit(1)`; conditional
`arrayUnion(date)` on the target label using the `dates` array read up
front; conditional `arrayRemove(date)` on the previous label when this was
an update, `previousLabelId` is truthy and differs from the new label id. -/
def asignLabelToDay (st : Store) (date labelId : String) :
    Store × Except Err AssignResult :=
  match findLabel st labelId with
  | none => (st, .error .notFound)
  | some labelDoc =>
    let up := upsertAssignment st date labelId
    let st1 := up.1
    let assignmentId := up.2.1
    let isUpdate := up.2.2.1
    let previousLabelId := up.2.2.2
    let st2 :=
      if date ∈ labelDoc.dates then st1
      else { st1 with labels := updateLabelDates st1.labels labelId (fun ds => arrayUnion ds date) }
    let result : AssignResult :=
      { id := assignmentId, date := date, labelId := labelId, isUpdate := isUpdate }
    match previousLabelId with
    | some prev =>
      if isUpdate && prev != "" && prev != labelId then
        match findLabel st2 prev with
        | none => (st2, .error .notFound)
        | some _ =>
            ({ st2 with labels := updateLabelDates st2.labels prev (fun ds => arrayRemove ds date) },
             .ok result)
      else (st2, .ok result)
    | none => (st2, .ok result)

/-- `deleteAssignment` (label router, lines 353-387): look up the assignment
for `date` (limit 1), throw `NOT_FOUND` when absent, otherwise delete that
document.  Label documents are never touched. -/
def deleteAssignment (st : Store) (date : String) :
    Store × Except Err (Nat × String) :=
  match findAssignment st date with
  | none => (st, .error .notFound)
  | some doc =>
      ({ st with assignments := st.assignments.filter (fun a => a.id != doc.id) },
       .ok (doc.id, date))

structure AssignmentView where
  id : Nat
  date : String
  labelId : String
  label : Label
  deriving Repr, DecidableEq

/-- `getLabelAsignmentByDate` (label router, lines 306-351): look up the
assignment for `date`; when its label no longer exists, delete the dangling
assignment and return null. -/
def getLabelAsignmentByDate (st : Store) (date : String) :
    Store × Option AssignmentView :=
  match findAssignment st date with
  | none => (st, none)
  | some doc =>
    match findLabel st doc.labelId with
    | none =>
        ({ st with assignments := st.assignments.filter (fun a => a.id != doc.id) }, none)
    | some labelDoc =>
        (st, some { id := doc.id, date := doc.date, labelId := doc.labelId, label := labelDoc })

inductive EmojiView where
  | bare (id : Nat) (date : String) (emojiId : String)
  | full (id : Nat) (date : String) (emojiId : String) (emoji : Label)
  deriving Repr, DecidableEq

/-- `getEmojiAsignmentByDate` (emoji router, lines 272-320): same lookup, but
when the emoji no longer exists the assignment is returned *without* emoji
data and is *not* deleted.  The `labels` list of the store stands for the
`emojis` collection here. -/
def getEmojiAsignmentByDate (st : Store) (date : String) :
    Store × Option EmojiView :=
  match findAssignment st date with
  | none => (st, none)
  | some doc =>
    match findLabel st doc.labelId with
    | none => (st, some (.bare doc.id doc.date doc.labelId))
    | some emojiDoc => (st, some (.full doc.id doc.date doc.labelId emojiDoc))

/-- The validated `editLabel` request (`LabelWithIdSchema`): `label` and
`description` are required strings, `dates` and `muscleGroups` are optional
arrays that Zod passes through when supplied. -/
structure LabelEditInput where
  id : String
  label : String
  description : String
  dates : Option (List String)
  muscleGroups : Option (List String)
  deriving Repr, DecidableEq

/-- The document patch `editLabel` applies: `updateData` holds exactly the
`label` and `description` fields destructured from the input. -/
def editPatch (input : LabelEditInput) (l : Label) : Label :=
  if l.id == input.id
  then { l with label := input.label, description := input.description }
  else l

/-- `editLabel` (label router, lines 179-216): `NOT_FOUND` when the label is
missing; otherwise builds `updateData` from the destructured `label` and
`description` fields only (the handler never reads `dates` or
`muscleGroups` from the input), applies the patch and returns the re-read
document. -/
def editLabel (st : Store) (input : LabelEditInput) : Store × Except Err Label :=
  match findLabel st input.id with
  | none => (st, .error .notFound)
  | some _ =>
    let st' := { st with labels := st.labels.map (editPatch input) }
    match findLabel st' input.id with
    | some updated => (st', .ok updated)
    | none => (st', .error .notFound)

/-- Gregorian leap-year rule, as implemented by the JS `Date` object. -/
def isLeapYear (y : Nat) : Bool :=
  (y % 4 == 0 && y % 100 != 0) || y % 400 == 0

/-- `new Date(year, month, 0).getDate()` for a 1-based `month`: the number of
days in that month of `year`. -/
def daysInMonth (y m : Nat) : Nat :=
  if m == 2 then (if isLeapYear y then 29 else 28)
  else if m == 4 || m == 6 || m == 9 || m == 11 then 30
  else 31

/-- `n.toString().padStart(2, '0')`. -/
def pad2 (n : Nat) : String :=
  if n < 10 then "0" ++ toString n else toString n

/-- `'-'`-splitting of a character list (the semantics of JS
`"....".split('-')`), written structurally so it evaluates in the kernel. -/
def splitDash (cs : List Char) : List (List Char) :=
  match cs with
  | [] => [[]]
  | c :: rest =>
    let r := splitDash rest
    if c = '-' then [] :: r
    else
      match r with
      | [] => [[c]]
      | g :: gs => (c :: g) :: gs

/-- JS `Number(...)` restricted to digit strings: `none` on any non-digit. -/
def parseNat (cs : List Char) : Option Nat :=
  cs.foldl
    (fun acc c =>
      match acc with
      | none => none
      | some n => if c.isDigit then some (n * 10 + (c.toNat - 48)) else none)
    (some 0)

/-- `date.split('-').map(Number)` on a `YYYY-MM` input. -/
def parseYearMonth (s : String) : Option (Nat × Nat) :=
  match (splitDash s.data).map parseNat with
  | [some y, some m] => some (y, m)
  | _ => none

/-- The inclusive `[startDateStr, endDateStr]` range computed by
`getAllLabelsFromMonth` (label router, lines 73-76); `getExerciseLogsByMonth`
(fitness router) computes the same endpoints. -/
def monthRange (year month : Nat) : String × String :=
  (toString year ++ "-" ++ pad2 month ++ "-01",
   toString year ++ "-" ++ pad2 month ++ "-" ++ pad2 (daysInMonth year month))

/-- `monthRange` applied to the raw `YYYY-MM` request string. -/
def monthRangeOfInput (s : String) : Option (String × String) :=
  (parseYearMonth s).map (fun ym => monthRange ym.1 ym.2)

/-- The assignments considered by the month query:
`where('date','>=',start).where('date','<=',end)` (Firestore compares
string fields lexicographically, as Lean's `String` order does on ASCII). -/
def assignmentsInRange (st : Store) (startDate endDate : String) : List Assignment :=
  st.assignments.filter (fun a => decide (startDate ≤ a.date) && decide (a.date ≤ endDate))

/-! ### Bulk migration scripts -/

/-- A legacy set from `scripts/convertSets.ts`: `setType` is any string or
null/absent; `value` is string/number/null — modelled after the JS `String()`
coercion already applied, so `some s` is a present value rendered as the
string `s` and `none` is `null`/`undefined`; `reps` likewise. -/
structure LegacySet where
  setType : Option String
  value : Option String
  reps : Option String
  deriving Repr, DecidableEq

structure MigratedSet where
  setType : String
  measure : String
  value : Option String
  reps : Option String
  deriving Repr, DecidableEq

/-- The per-set rewrite of `migrateExerciseLogs` (convertSets.ts lines
70-100): `measure` defaults to `kg` and is remapped by the `switch` on the
legacy `setType`; `setType` is always `normal` and `reps` always `"8-9"`;
`value` is kept (stringified) or null. -/
def migrateSet (s : LegacySet) : MigratedSet :=
  let measure : String :=
    match s.setType with
    | some "kg" => "kg"
    | some "lbs" => "lbs"
    | some "time" => "sec"
    | some "distance" => "distance"
    | some "steps" => "step"
    | _ => "kg"
  { setType := "normal", measure := measure, value := s.value, reps := some "8-9" }

/-- `updatedSets` for one log document. -/
def migrateSets (sets : List LegacySet) : List MigratedSet :=
  sets.map migrateSet

/-- The batch bookkeeping shared by both scripts: sizes of the batches
committed so far, in commit order (each `await batch.commit()` appends
here before the next batch starts), plus the writes queued in the current
uncommitted batch. -/
structure BatchState where
  committed : List Nat
  pending : Nat
  deriving Repr, DecidableEq

/-- Queue one write: increment `writesInBatch`; at 450 commit the batch and
start a fresh one (convertSets.ts lines 104-112, deleteTodaysLogs.ts lines
45-54). -/
def queueWrite (bs : BatchState) : BatchState :=
  if bs.pending + 1 ≥ 450 then { committed := bs.committed ++ [bs.pending + 1], pending := 0 }
  else { committed := bs.committed, pending := bs.pending + 1 }

/-- Commit whatever remains in the current batch, if anything
(convertSets.ts lines 116-119, deleteTodaysLogs.ts lines 58-62). -/
def flushBatch (bs : BatchState) : BatchState :=
  if bs.pending > 0 then { committed := bs.committed ++ [bs.pending], pending := 0 }
  else bs

/-- The write-batching skeleton of `migrateExerciseLogs` (convertSets.ts
lines 58-119): one `batch.set` is queued per scanned log whose rewritten
`sets` array is non-empty, then the final batch is committed. -/
def migrateExerciseLogsBatches (logs : List (List LegacySet)) : BatchState :=
  flushBatch (logs.foldl
    (fun bs sets => if (migrateSets sets).length > 0 then queueWrite bs else bs)
    { committed := [], pending := 0 })

/-- The write-batching skeleton of one page of `deleteTodaysLogs`
(deleteTodaysLogs.ts lines 38-62): one `batch.delete` is queued per doc of
the page whose `date` field equals `today`, then the page's final batch is
committed. -/
def deleteTodaysLogsPageBatches (docDates : List String) (today : String) : BatchState :=
  flushBatch (docDates.foldl
    (fun bs d => if d == today then queueWrite bs else bs)
    { committed := [], pending := 0 })

/-! ### Store invariants -/

/-- Day-Assignment uniqueness: pairwise distinct `date` values, i.e. at most
one assignment per date. -/
def uniqueDates (st : Store) : Prop :=
  st.assignments.Pairwise (fun a b => a.date ≠ b.date)

instance (st : Store) : Decidable (uniqueDates st) := by
  unfold uniqueDates; infer_instance

/-- Label date-list consistency: a date appears in a label's `dates` list iff
some assignment for that date points at that label's id (stated with both
directions bounded so it is decidable on concrete stores). -/
def consistent (st : Store) : Prop :=
  (∀ l ∈ st.labels, ∀ d ∈ l.dates, ∃ a ∈ st.assignments, a.date = d ∧ a.labelId = l.id) ∧
  (∀ a ∈ st.assignments, ∀ l ∈ st.labels, a.labelId = l.id → a.date ∈ l.dates)

instance (st : Store) : Decidable (consistent st) := by
  unfold consistent; infer_instance

/-- Well-formedness delivered by Firestore and the input validator: unique
assignment doc ids, the id counter ahead of every issued id, and label doc
ids non-empty (Zod requires `labelId` strings of length ≥ 1 and Firestore
doc ids are non-empty). -/
def wfStore (st : Store) : Prop :=
  (st.assignments.map (fun a => a.id)).Nodup ∧
  (∀ a ∈ st.assignments, a.id < st.nextId) ∧
  (∀ l ∈ st.labels, l.id ≠ "")

instance (st : Store) : Decidable (wfStore st) := by
  unfold wfStore; infer_instance

/-- A sequence of sequential `asignLabelToDay` calls, each seeing the store
the previous one left behind (including the writes of calls that ended in a
thrown error). -/
def runAssignCalls (st : Store) (calls : List (String × String)) : Store :=
  calls.foldl (fun s c => (asignLabelToDay s c.1 c.2).1) st

/-- The store after the in-place relabel of the existing assignment `doc`
inside `asignLabelToDay` (the update branch of the upsert). -/
def asignStep1 (st : Store) (lid : String) (doc : Assignment) : Store :=
  { st with assignments := st.assignments.map (fun a =>
      if a.id == doc.id then { a with labelId := lid } else a) }

/-- The store after the relabel and the conditional `arrayUnion` on the
target label's `dates` (read as `L` before any write). -/
def asignStep2 (st : Store) (d lid : String) (L : Label) (doc : Assignment) : Store :=
  if d ∈ L.dates then asignStep1 st lid doc
  else { asignStep1 st lid doc with
           labels := updateLabelDates (asignStep1 st lid doc).labels lid
             (fun ds => arrayUnion ds d) }

/-! ### Concrete stores used by witnesses and counterexamples -/

def assignStore : Store :=
  { labels := [{ id := "L1", label := "A", description := "a", dates := [], muscleGroups := [] },
               { id := "L2", label := "B", description := "b", dates := [], muscleGroups := [] }],
    assignments := [], nextId := 0 }

/-- The invariant carried through the batching loops. -/
def BatchInv (bs : BatchState) : Prop :=
  (∀ b ∈ bs.committed, 0 < b ∧ b ≤ 450) ∧ bs.pending < 450

def delStore : Store :=
  { labels := [{ id := "L1", label := "A", description := "a",
                 dates := ["2025-03-10"], muscleGroups := [] }],
    assignments := [{ id := 0, date := "2025-03-10", labelId := "L1" }],
    nextId := 1 }

def danglingStore : Store :=
  { labels := [], assignments := [{ id := 0, date := "2025-03-10", labelId := "L9" }], nextId := 1 }

def editStore : Store :=
  { labels := [{ id := "L1", label := "A", description := "a", dates := [], muscleGroups := [] }],
    assignments := [], nextId := 0 }

def editInputEx : LabelEditInput :=
  { id := "L1", label := "A", description := "a",
    dates := some ["2025-01-01"], muscleGroups := none }

/-! ### Helper lemmas -/

theorem find?_map_of_id {α : Type} (l : List α) (g : α → α) (p : α → Bool)
    (hg : ∀ a, p (g a) = p a) :
    (l.map g).find? p = (l.find? p).map g := by
  induction l with
  | nil => rfl
  | cons a t ih =>
    simp only [List.map_cons, List.find?_cons, hg a]
    cases hpa : p a
    · exact ih
    · rfl

theorem mem_arrayUnion (ds : List String) (d x : String) :
    x ∈ arrayUnion ds d ↔ x ∈ ds ∨ x = d := by
  unfold arrayUnion
  split
  · constructor
    · exact fun h => Or.inl h
    · rintro (h | rfl) <;> assumption
  · simp [List.mem_append]

theorem mem_arrayUnion_self (ds : List String) (d : String) : d ∈ arrayUnion ds d :=
  (mem_arrayUnion ds d d).mpr (Or.inr rfl)

theorem mem_arrayRemove (ds : List String) (d x : String) :
    x ∈ arrayRemove ds d ↔ x ∈ ds ∧ x ≠ d := by
  unfold arrayRemove
  simp [List.mem_filter]

theorem not_mem_arrayRemove_self (ds : List String) (d : String) : d ∉ arrayRemove ds d := by
  intro h
  exact ((mem_arrayRemove ds d d).mp h).2 rfl

theorem count_arrayUnion_self (ds : List String) (d : String) (h : ds.count d ≤ 1) :
    (arrayUnion ds d).count d = 1 := by
  unfold arrayUnion
  split
  · have h1 : 0 < ds.count d := List.count_pos_iff.mpr (by assumption)
    omega
  · have h0 : ds.count d = 0 := List.count_eq_zero.mpr (by assumption)
    simp [List.count_append, h0]

theorem find?_updateLabelDates (labels : List Label) (t s : String)
    (f : List String → List String) :
    (updateLabelDates labels t f).find? (fun l => l.id == s) =
      (labels.find? (fun l => l.id == s)).map
        (fun l => if l.id == t then { l with dates := f l.dates } else l) := by
  unfold updateLabelDates
  apply find?_map_of_id
  intro l
  split <;> rfl

theorem findLabel_update_self (labels : List Label) (lid : String) (L : Label)
    (f : List String → List String)
    (hL : labels.find? (fun l => l.id == lid) = some L) :
    (updateLabelDates labels lid f).find? (fun l => l.id == lid) =
      some { L with dates := f L.dates } := by
  have hid : (L.id == lid) = true := by
    have h2 := List.find?_some hL
    exact h2
  rw [find?_updateLabelDates, hL, Option.map_some']
  rw [if_pos hid]

theorem findLabel_update_other (labels : List Label) (t lid : String) (L : Label)
    (f : List String → List String)
    (hL : labels.find? (fun l => l.id == lid) = some L) (hne : L.id ≠ t) :
    (updateLabelDates labels t f).find? (fun l => l.id == lid) = some L := by
  rw [find?_updateLabelDates, hL, Option.map_some']
  rw [if_neg (by simp [hne])]

theorem mem_updateLabelDates (labels : List Label) (t : String)
    (f : List String → List String) (l' : Label) :
    l' ∈ updateLabelDates labels t f ↔
      ∃ l ∈ labels, l' = if l.id == t then { l with dates := f l.dates } else l := by
  unfold updateLabelDates
  simp only [List.mem_map]
  constructor
  · rintro ⟨l, hl, rfl⟩; exact ⟨l, hl, rfl⟩
  · rintro ⟨l, hl, rfl⟩; exact ⟨l, hl, rfl⟩

theorem updateLabelDates_id (labels : List Label) (t : String)
    (f : List String → List String) (h : ∀ l ∈ labels, l.id ≠ t) :
    updateLabelDates labels t f = labels := by
  unfold updateLabelDates
  have hcg : ∀ l ∈ labels, (if l.id == t then { l with dates := f l.dates } else l) = l := by
    intro l hl
    rw [if_neg (by simp [h l hl])]
  rw [List.map_congr_left hcg, List.map_id']

theorem eq_of_uniqueDates {l : List Assignment} (hp : l.Pairwise (fun a b => a.date ≠ b.date))
    {a b : Assignment} (ha : a ∈ l) (hb : b ∈ l) (hd : a.date = b.date) : a = b := by
  induction l with
  | nil => cases ha
  | cons c t ih =>
    have hp' := List.pairwise_cons.mp hp
    cases ha with
    | head =>
      cases hb with
      | head => rfl
      | tail _ hb' => exact absurd hd (hp'.1 b hb')
    | tail _ ha' =>
      cases hb with
      | head => exact absurd hd.symm (hp'.1 a ha')
      | tail _ hb' => exact ih hp'.2 ha' hb'

theorem filter_len_le_one_of_pairwise {l : List Assignment} (d : String)
    (hp : l.Pairwise (fun a b => a.date ≠ b.date)) :
    (l.filter (fun a => a.date == d)).length ≤ 1 := by
  induction l with
  | nil => simp
  | cons a t ih =>
    have hp' := List.pairwise_cons.mp hp
    by_cases hd : a.date = d
    · have ht : t.filter (fun x => x.date == d) = [] := by
        rw [List.filter_eq_nil_iff]
        intro b hb
        have : a.date ≠ b.date := hp'.1 b hb
        simp only [beq_iff_eq]
        intro hbd
        exact this (hd.trans hbd.symm)
      simp [List.filter_cons, hd, ht]
    · have : (a.date == d) = false := by simp [hd]
      simp only [List.filter_cons, this, Bool.false_eq_true, if_false, cond_false]
      exact ih hp'.2

/-- The label-existence precondition reduces `asignLabelToDay`, in the
no-existing-assignment case, to one creation plus one conditional
`arrayUnion`. -/
theorem asign_create_eq (st : Store) (d lid : String) (L : Label)
    (hL : findLabel st lid = some L) (hno : findAssignment st d = none) :
    asignLabelToDay st d lid =
      ({ st with
           labels := if d ∈ L.dates then st.labels
                     else updateLabelDates st.labels lid (fun ds => arrayUnion ds d),
           assignments := st.assignments ++ [{ id := st.nextId, date := d, labelId := lid }],
           nextId := st.nextId + 1 },
       .ok { id := st.nextId, date := d, labelId := lid, isUpdate := false }) := by
  unfold asignLabelToDay upsertAssignment
  rw [hL, hno]
  by_cases hmem : d ∈ L.dates <;> simp [hmem]

/-- The label-existence precondition reduces `asignLabelToDay`, in the
existing-assignment case, to an in-place relabel, a conditional
`arrayUnion`, and the previous-label `arrayRemove` step. -/
theorem asign_update_eq (st : Store) (d lid : String) (L : Label) (doc : Assignment)
    (hL : findLabel st lid = some L) (hdoc : findAssignment st d = some doc) :
    asignLabelToDay st d lid =
      (if doc.labelId != "" && doc.labelId != lid then
         match findLabel (asignStep2 st d lid L doc) doc.labelId with
         | none => (asignStep2 st d lid L doc, .error .notFound)
         | some _ =>
             ({ asignStep2 st d lid L doc with
                  labels := updateLabelDates (asignStep2 st d lid L doc).labels doc.labelId
                    (fun ds => arrayRemove ds d) },
              .ok { id := doc.id, date := d, labelId := lid, isUpdate := true })
       else (asignStep2 st d lid L doc,
             .ok { id := doc.id, date := d, labelId := lid, isUpdate := true })) := by
  unfold asignLabelToDay upsertAssignment asignStep2 asignStep1
  rw [hL, hdoc]
  simp only [Bool.true_and]

theorem asign_label_missing_eq (st : Store) (d lid : String) (h : findLabel st lid = none) :
    asignLabelToDay st d lid = (st, .error .notFound) := by
  unfold asignLabelToDay
  rw [h]

theorem asignStep2_assignments (st : Store) (d lid : String) (L : Label) (doc : Assignment) :
    (asignStep2 st d lid L doc).assignments =
      st.assignments.map (fun a => if a.id == doc.id then { a with labelId := lid } else a) := by
  unfold asignStep2 asignStep1
  split <;> rfl

theorem asignStep2_nextId (st : Store) (d lid : String) (L : Label) (doc : Assignment) :
    (asignStep2 st d lid L doc).nextId = st.nextId := by
  unfold asignStep2 asignStep1
  split <;> rfl

/-- Lookup of any label with an id other than the assignment target after
the relabel-and-union stage: unchanged. -/
theorem findLabel_asignStep2_other (st : Store) (d lid : String) (L : Label) (doc : Assignment)
    (s : String) (L' : Label) (h : findLabel st s = some L') (hne : L'.id ≠ lid) :
    findLabel (asignStep2 st d lid L doc) s = some L' := by
  have hLf : st.labels.find? (fun l => l.id == s) = some L' := h
  unfold asignStep2 findLabel
  rw [apply_ite Store.labels]
  dsimp only [asignStep1]
  split
  · exact hLf
  · exact findLabel_update_other _ _ _ _ _ hLf hne

/-- Lookup of the target label after the relabel-and-union stage: its
`dates` array is the old one with `d` union-added. -/
theorem findLabel_asignStep2_self (st : Store) (d lid : String) (L : Label) (doc : Assignment)
    (h : findLabel st lid = some L) :
    findLabel (asignStep2 st d lid L doc) lid =
      some { L with dates := arrayUnion L.dates d } := by
  have hLf : st.labels.find? (fun l => l.id == lid) = some L := h
  unfold asignStep2 findLabel
  rw [apply_ite Store.labels]
  dsimp only [asignStep1]
  by_cases hmem : d ∈ L.dates
  · rw [if_pos hmem, hLf]
    unfold arrayUnion
    rw [if_pos hmem]
  · rw [if_neg hmem]
    exact findLabel_update_self _ _ _ _ hLf

/-- Whatever branch `asignLabelToDay` takes, its effect on the assignments
collection is: nothing, an in-place relabel of the found doc, or the append
of one fresh doc for a date that had none. -/
theorem asign_result_assignments (st : Store) (d lid : String) :
    (asignLabelToDay st d lid).1.assignments = st.assignments ∨
    (∃ doc, findAssignment st d = some doc ∧
      (asignLabelToDay st d lid).1.assignments =
        st.assignments.map (fun a => if a.id == doc.id then { a with labelId := lid } else a)) ∨
    (findAssignment st d = none ∧
      (asignLabelToDay st d lid).1.assignments =
        st.assignments ++ [{ id := st.nextId, date := d, labelId := lid }]) := by
  cases hL : findLabel st lid with
  | none =>
    left
    rw [asign_label_missing_eq st d lid hL]
  | some L =>
    cases hA : findAssignment st d with
    | none =>
      right; right
      refine ⟨rfl, ?_⟩
      rw [asign_create_eq st d lid L hL hA]
    | some doc =>
      right; left
      refine ⟨doc, rfl, ?_⟩
      rw [asign_update_eq st d lid L doc hL hA]
      repeat' split
      all_goals exact asignStep2_assignments st d lid L doc

theorem asign_preserves_uniqueDates (st : Store) (d lid : String) (h : uniqueDates st) :
    uniqueDates (asignLabelToDay st d lid).1 := by
  unfold uniqueDates at h ⊢
  rcases asign_result_assignments st d lid with h1 | ⟨doc, _, h1⟩ | ⟨hA, h1⟩
  · rw [h1]
    exact h
  · rw [h1, List.pairwise_map]
    refine h.imp ?_
    intro a b hab
    have hda : ∀ x : Assignment,
        (if x.id == doc.id then { x with labelId := lid } else x).date = x.date := by
      intro x
      split <;> rfl
    rw [hda a, hda b]
    exact hab
  · rw [h1, List.pairwise_append]
    refine ⟨h, List.pairwise_singleton _ _, ?_⟩
    intro a ha b hb
    simp only [List.mem_singleton] at hb
    subst hb
    unfold findAssignment at hA
    rw [List.find?_eq_none] at hA
    have := hA a ha
    simpa using this

/-! ### Claim C1: at most one assignment per date -/

/-- C1: starting from any store satisfying day-assignment uniqueness, after
any sequence of sequential `asignLabelToDay` calls at most one Day
Assignment record exists for any date (the operation updates the found
assignment in place, creating a new record only when the limit-1 date query
finds none).  `asignEmojiToDay` is the same code over the emoji
collections. -/
theorem asign_at_most_one_per_date (st : Store) (calls : List (String × String)) (d : String)
    (h : uniqueDates st) :
    ((runAssignCalls st calls).assignments.filter (fun a => a.date == d)).length ≤ 1 := by
  have hu : uniqueDates (runAssignCalls st calls) := by
    induction calls generalizing st with
    | nil => exact h
    | cons c t ih => exact ih _ (asign_preserves_uniqueDates _ _ _ h)
  exact filter_len_le_one_of_pairwise d hu

/-- Witness for C1: two sequential calls on the same date leave one
assignment. -/
theorem asign_at_most_one_per_date_witness :
    ((runAssignCalls assignStore [("2025-03-10", "L1"), ("2025-03-10", "L2")]).assignments.filter
      (fun a => a.date == "2025-03-10")).length ≤ 1 :=
  asign_at_most_one_per_date assignStore [("2025-03-10", "L1"), ("2025-03-10", "L2")]
    "2025-03-10" (by decide)

/-! ### Claim C4: idempotent set-add -/

/-- The target label after `asignLabelToDay`: its `dates` array is exactly
the old one with `date` union-added, whether the assignment was created or
updated, and whether or not the previous-label `arrayRemove` ran or
errored. -/
theorem findLabel_asignLabelToDay (st : Store) (d lid : String) (L : Label)
    (hL : findLabel st lid = some L) :
    findLabel (asignLabelToDay st d lid).1 lid =
      some { L with dates := arrayUnion L.dates d } := by
  have hLf : st.labels.find? (fun l => l.id == lid) = some L := hL
  have hid : (L.id == lid) = true := by
    have h2 := List.find?_some hLf
    exact h2
  have hidEq : L.id = lid := by simpa using hid
  cases hA : findAssignment st d with
  | none =>
    rw [asign_create_eq st d lid L hL hA]
    unfold findLabel
    dsimp only
    by_cases hmem : d ∈ L.dates
    · rw [if_pos hmem, hLf]
      unfold arrayUnion
      rw [if_pos hmem]
    · rw [if_neg hmem]
      exact findLabel_update_self _ _ _ _ hLf
  | some doc =>
    rw [asign_update_eq st d lid L doc hL hA]
    have hself := findLabel_asignStep2_self st d lid L doc hL
    split
    · rename_i hcond
      have hprev : doc.labelId ≠ lid := by
        rw [Bool.and_eq_true] at hcond
        simpa using hcond.2
      split
      · exact hself
      · show findLabel { asignStep2 st d lid L doc with
            labels := updateLabelDates (asignStep2 st d lid L doc).labels doc.labelId
              (fun ds => arrayRemove ds d) } lid = _
        unfold findLabel
        dsimp only
        refine findLabel_update_other _ _ _ _ _ hself ?_
        show ({ L with dates := arrayUnion L.dates d } : Label).id ≠ doc.labelId
        dsimp only
        rw [hidEq]
        exact fun hx => hprev hx.symm
    · exact hself

/-- C4: calling `asignLabelToDay(d, L)` twice in a row leaves `L.dates`
containing `d` exactly once (no duplicate entry is added), given a stored
`dates` array that does not already duplicate `d`. -/
theorem asign_twice_dates_once (st : Store) (d lid : String) (L : Label)
    (hL : findLabel st lid = some L) (hcount : L.dates.count d ≤ 1) :
    ∃ L', findLabel (asignLabelToDay (asignLabelToDay st d lid).1 d lid).1 lid = some L' ∧
      L'.dates.count d = 1 := by
  have h1 := findLabel_asignLabelToDay st d lid L hL
  have h2 := findLabel_asignLabelToDay _ d lid _ h1
  refine ⟨_, h2, ?_⟩
  have hc1 : (arrayUnion L.dates d).count d = 1 := count_arrayUnion_self _ _ hcount
  show (arrayUnion (arrayUnion L.dates d) d).count d = 1
  exact count_arrayUnion_self _ _ (le_of_eq hc1)

/-- Witness for C4 at a concrete store. -/
theorem asign_twice_dates_once_witness :
    ∃ L', findLabel
        (asignLabelToDay (asignLabelToDay assignStore "2025-03-10" "L1").1
          "2025-03-10" "L1").1 "L1" = some L' ∧
      L'.dates.count "2025-03-10" = 1 :=
  asign_twice_dates_once assignStore "2025-03-10" "L1"
    { id := "L1", label := "A", description := "a", dates := [], muscleGroups := [] }
    (by decide) (by decide)

/-! ### Claim C3: assign then reassign -/

/-- C3: from a state with no assignment for `d` and two existing labels
`L1 ≠ L2`, `asignLabelToDay(d, L1)` then `asignLabelToDay(d, L2)` leaves
`L2.dates` containing `d`, `L1.dates` not containing `d`, the single
assignment for `d` pointing at `L2`, and the second call reporting an
update. -/
theorem assign_then_reassign (st : Store) (d l1 l2 : String) (L1 L2 : Label)
    (h1 : findLabel st l1 = some L1) (h2 : findLabel st l2 = some L2)
    (hne : l1 ≠ l2) (hl1ne : l1 ≠ "")
    (hnoass : findAssignment st d = none) :
    (∃ L2', findLabel (asignLabelToDay (asignLabelToDay st d l1).1 d l2).1 l2 = some L2' ∧
      d ∈ L2'.dates) ∧
    (∃ L1', findLabel (asignLabelToDay (asignLabelToDay st d l1).1 d l2).1 l1 = some L1' ∧
      d ∉ L1'.dates) ∧
    (asignLabelToDay (asignLabelToDay st d l1).1 d l2).1.assignments.filter
      (fun a => a.date == d) = [{ id := st.nextId, date := d, labelId := l2 }] ∧
    (asignLabelToDay (asignLabelToDay st d l1).1 d l2).2 =
      .ok { id := st.nextId, date := d, labelId := l2, isUpdate := true } := by
  have hidb : L2.id = l2 := by
    have hx := List.find?_some (show st.labels.find? (fun l => l.id == l2) = some L2 from h2)
    simpa using hx
  have hida : L1.id = l1 := by
    have hx := List.find?_some (show st.labels.find? (fun l => l.id == l1) = some L1 from h1)
    simpa using hx
  have hst1 := asign_create_eq st d l1 L1 h1 hnoass
  have hf1u := findLabel_asignLabelToDay st d l1 L1 h1
  have hf2 : findLabel (asignLabelToDay st d l1).1 l2 = some L2 := by
    rw [hst1]
    show (if d ∈ L1.dates then st.labels
        else updateLabelDates st.labels l1 (fun ds => arrayUnion ds d)).find?
        (fun l => l.id == l2) = some L2
    by_cases hmem : d ∈ L1.dates
    · rw [if_pos hmem]
      exact h2
    · rw [if_neg hmem]
      exact findLabel_update_other _ _ _ _ _ h2 (by rw [hidb]; exact hne.symm)
  have hfA : findAssignment (asignLabelToDay st d l1).1 d =
      some { id := st.nextId, date := d, labelId := l1 } := by
    rw [hst1]
    show (st.assignments ++ [({ id := st.nextId, date := d, labelId := l1 } : Assignment)]).find?
        (fun a => a.date == d) = some { id := st.nextId, date := d, labelId := l1 }
    rw [List.find?_append]
    have h0 : st.assignments.find? (fun a => a.date == d) = none := hnoass
    rw [h0, Option.none_or]
    exact List.find?_cons_of_pos _ (by simp)
  have heq2 := asign_update_eq (asignLabelToDay st d l1).1 d l2 L2
      { id := st.nextId, date := d, labelId := l1 } hf2 hfA
  have hcond : (l1 != "" && l1 != l2) = true := by simp [hl1ne, hne]
  have hself2 := findLabel_asignStep2_self (asignLabelToDay st d l1).1 d l2 L2
      { id := st.nextId, date := d, labelId := l1 } hf2
  have hother1 := findLabel_asignStep2_other (asignLabelToDay st d l1).1 d l2 L2
      { id := st.nextId, date := d, labelId := l1 } l1 _ hf1u
      (by dsimp only; rw [hida]; exact hne)
  rw [heq2]
  dsimp only
  rw [if_pos hcond, hother1]
  dsimp only
  refine ⟨?_, ?_, ?_, ?_⟩
  · refine ⟨{ L2 with dates := arrayUnion L2.dates d }, ?_, mem_arrayUnion_self _ _⟩
    unfold findLabel
    dsimp only
    refine findLabel_update_other _ _ _ _ _ hself2 ?_
    dsimp only
    rw [hidb]
    exact hne.symm
  · refine ⟨{ L1 with dates := arrayRemove (arrayUnion L1.dates d) d }, ?_,
      not_mem_arrayRemove_self (arrayUnion L1.dates d) d⟩
    unfold findLabel
    dsimp only
    exact findLabel_update_self _ _ _ _ hother1
  · have hasg1 : (asignLabelToDay st d l1).1.assignments =
        st.assignments ++ [{ id := st.nextId, date := d, labelId := l1 }] := by rw [hst1]
    show ((asignStep2 (asignLabelToDay st d l1).1 d l2 L2
        { id := st.nextId, date := d, labelId := l1 }).assignments.filter
        (fun a => a.date == d)) = _
    rw [asignStep2_assignments, hasg1, List.map_append, List.filter_append]
    have hl : ((st.assignments.map (fun a =>
        if a.id == st.nextId then { a with labelId := l2 } else a)).filter
        (fun a => a.date == d)) = [] := by
      rw [List.filter_eq_nil_iff]
      intro a' ha'
      obtain ⟨a, ha, rfl⟩ := List.mem_map.mp ha'
      have hnd : ¬(a.date == d) = true := by
        have hno : st.assignments.find? (fun a => a.date == d) = none := hnoass
        rw [List.find?_eq_none] at hno
        exact hno a ha
      have hdg : (if a.id == st.nextId then { a with labelId := l2 } else a).date = a.date := by
        split <;> rfl
      rw [hdg]
      exact hnd
    rw [hl, List.nil_append]
    simp
  · rfl

/-- Witness for C3 at a concrete store with labels `L1`, `L2` and no
assignments. -/
theorem assign_then_reassign_witness :
    (asignLabelToDay (asignLabelToDay assignStore "2025-03-10" "L1").1
      "2025-03-10" "L2").2 =
      .ok { id := 0, date := "2025-03-10", labelId := "L2", isUpdate := true } :=
  (assign_then_reassign assignStore "2025-03-10" "L1" "L2"
    { id := "L1", label := "A", description := "a", dates := [], muscleGroups := [] }
    { id := "L2", label := "B", description := "b", dates := [], muscleGroups := [] }
    (by decide) (by decide) (by decide) (by decide) (by decide)).2.2.2

/-! ### Claim C2: label date-list consistency -/

/-- Creation case: `asignLabelToDay` keeps the date-list invariant when no
assignment for `d` existed. -/
theorem asign_create_consistent (st : Store) (d lid : String) (L : Label)
    (hc : consistent st) (hL : findLabel st lid = some L) (hA : findAssignment st d = none) :
    consistent (asignLabelToDay st d lid).1 := by
  have hLmem : L ∈ st.labels := List.mem_of_find?_eq_some hL
  have hnodate : ∀ a ∈ st.assignments, a.date ≠ d := by
    have h0 : st.assignments.find? (fun a => a.date == d) = none := hA
    rw [List.find?_eq_none] at h0
    intro a ha
    simpa using h0 a ha
  have hdnotin : d ∉ L.dates := by
    intro hdin
    obtain ⟨a, ha, had, _⟩ := hc.1 L hLmem d hdin
    exact hnodate a ha had
  rw [asign_create_eq st d lid L hL hA]
  rw [if_neg hdnotin]
  unfold consistent
  dsimp only
  constructor
  · intro l' hl' d' hd'
    obtain ⟨l0, hl0, heq⟩ := (mem_updateLabelDates _ _ _ _).mp hl'
    subst heq
    by_cases hil : (l0.id == lid) = true
    · rw [if_pos hil] at hd' ⊢
      dsimp only at hd' ⊢
      rcases (mem_arrayUnion _ _ _).mp hd' with hold | heqd
      · obtain ⟨a, ha, had, hal⟩ := hc.1 l0 hl0 d' hold
        exact ⟨a, List.mem_append_left _ ha, had, hal⟩
      · refine ⟨{ id := st.nextId, date := d, labelId := lid },
          List.mem_append_right _ (List.mem_singleton.mpr rfl), heqd.symm, ?_⟩
        have hid0 : l0.id = lid := by simpa using hil
        exact hid0.symm
    · rw [if_neg hil] at hd' ⊢
      obtain ⟨a, ha, had, hal⟩ := hc.1 l0 hl0 d' hd'
      exact ⟨a, List.mem_append_left _ ha, had, hal⟩
  · intro a' ha' l' hl' heq'
    rw [List.mem_append] at ha'
    obtain ⟨l0, hl0, heql⟩ := (mem_updateLabelDates _ _ _ _).mp hl'
    subst heql
    rcases ha' with ha | ha
    · by_cases hil : (l0.id == lid) = true
      · rw [if_pos hil] at heq' ⊢
        dsimp only at heq' ⊢
        exact (mem_arrayUnion _ _ _).mpr (Or.inl (hc.2 a' ha l0 hl0 heq'))
      · rw [if_neg hil] at heq' ⊢
        exact hc.2 a' ha l0 hl0 heq'
    · rw [List.mem_singleton] at ha
      subst ha
      by_cases hil : (l0.id == lid) = true
      · rw [if_pos hil]
        dsimp only
        exact (mem_arrayUnion _ _ _).mpr (Or.inr rfl)
      · exfalso
        rw [if_neg hil] at heq'
        dsimp only at heq'
        exact hil (by simp [heq'.symm])

/-- Update case, previous label different from the target: after the
in-place relabel, the `arrayUnion` on the target and the `arrayRemove` on
the previous label, the date-list invariant holds again. -/
theorem asign_update_consistent_core (st : Store) (d lid : String) (L : Label) (doc : Assignment)
    (hwf : wfStore st) (hu : uniqueDates st) (hc : consistent st)
    (_hL : findLabel st lid = some L) (hA : findAssignment st d = some doc)
    (hPrevNe : doc.labelId ≠ lid) :
    consistent
      { labels := updateLabelDates (updateLabelDates st.labels lid (fun ds => arrayUnion ds d))
          doc.labelId (fun ds => arrayRemove ds d),
        assignments := st.assignments.map (fun a =>
          if a.id == doc.id then { a with labelId := lid } else a),
        nextId := st.nextId } := by
  have hdocMem : doc ∈ st.assignments := List.mem_of_find?_eq_some hA
  have hdocDate : doc.date = d := by
    have hx := List.find?_some hA
    simpa using hx
  have hInj : ∀ a ∈ st.assignments, a.id = doc.id → a = doc :=
    fun a ha hq => List.inj_on_of_nodup_map hwf.1 ha hdocMem hq
  have hUniq : ∀ a ∈ st.assignments, a.date = d → a = doc :=
    fun a ha hd' => eq_of_uniqueDates hu ha hdocMem (by rw [hd', hdocDate])
  have hIffPrev : ∀ l0 ∈ st.labels, d ∈ l0.dates → l0.id = doc.labelId := by
    intro l0 hl0 hd0
    obtain ⟨a, ha, had, hal⟩ := hc.1 l0 hl0 d hd0
    have haeq : a = doc := hUniq a ha had
    rw [haeq] at hal
    exact hal.symm
  have hmemA : ∀ a', a' ∈ st.assignments.map (fun a =>
      if a.id == doc.id then { a with labelId := lid } else a) ↔
      ((∃ a ∈ st.assignments, a ≠ doc ∧ a' = a) ∨ a' = { doc with labelId := lid }) := by
    intro a'
    rw [List.mem_map]
    constructor
    · rintro ⟨a, ha, rfl⟩
      by_cases hq : (a.id == doc.id) = true
      · have haeq : a = doc := hInj a ha (by simpa using hq)
        subst haeq
        right
        rw [if_pos hq]
      · left
        refine ⟨a, ha, fun hadoc => hq (by rw [hadoc]; simp), ?_⟩
        rw [if_neg hq]
    · rintro (⟨a, ha, hne', rfl⟩ | rfl)
      · refine ⟨a', ha, ?_⟩
        have hq : ¬(a'.id == doc.id) = true := fun hq => hne' (hInj a' ha (by simpa using hq))
        rw [if_neg hq]
      · refine ⟨doc, hdocMem, ?_⟩
        rw [if_pos (by simp)]
  unfold consistent
  dsimp only
  constructor
  · intro l' hl' d' hd'
    obtain ⟨l1, hl1, heq1⟩ := (mem_updateLabelDates _ _ _ _).mp hl'
    obtain ⟨l0, hl0, heq0⟩ := (mem_updateLabelDates _ _ _ _).mp hl1
    subst heq0
    subst heq1
    by_cases hil : (l0.id == lid) = true
    · have hid0 : l0.id = lid := by simpa using hil
      rw [if_pos hil] at hd' ⊢
      have hr : ¬((({ l0 with dates := arrayUnion l0.dates d } : Label).id == doc.labelId)
          = true) := by
        dsimp only
        rw [hid0]
        simp only [beq_iff_eq]
        exact Ne.symm hPrevNe
      rw [if_neg hr] at hd' ⊢
      dsimp only at hd' ⊢
      rcases (mem_arrayUnion _ _ _).mp hd' with hold | heqd
      · obtain ⟨a, ha, had, hal⟩ := hc.1 l0 hl0 d' hold
        have hane : a ≠ doc := by
          intro haeq
          subst haeq
          have hd'd : d' = d := by rw [← had, hdocDate]
          subst hd'd
          have hlp := hIffPrev l0 hl0 hold
          rw [hid0] at hlp
          exact hPrevNe hlp.symm
        exact ⟨a, (hmemA a).mpr (Or.inl ⟨a, ha, hane, rfl⟩), had, hal⟩
      · refine ⟨{ doc with labelId := lid }, (hmemA _).mpr (Or.inr rfl), ?_, ?_⟩
        · dsimp only
          rw [hdocDate]
          exact heqd.symm
        · dsimp only
          exact hid0.symm
    · rw [if_neg hil] at hd' ⊢
      by_cases hip : (l0.id == doc.labelId) = true
      · rw [if_pos hip] at hd' ⊢
        dsimp only at hd' ⊢
        obtain ⟨hold, hne'⟩ := (mem_arrayRemove _ _ _).mp hd'
        obtain ⟨a, ha, had, hal⟩ := hc.1 l0 hl0 d' hold
        have hane : a ≠ doc := by
          intro haeq
          subst haeq
          exact hne' (by rw [← had, hdocDate])
        exact ⟨a, (hmemA a).mpr (Or.inl ⟨a, ha, hane, rfl⟩), had, hal⟩
      · rw [if_neg hip] at hd' ⊢
        obtain ⟨a, ha, had, hal⟩ := hc.1 l0 hl0 d' hd'
        have hane : a ≠ doc := by
          intro haeq
          subst haeq
          exact hip (by simp [hal.symm])
        exact ⟨a, (hmemA a).mpr (Or.inl ⟨a, ha, hane, rfl⟩), had, hal⟩
  · intro a' ha' l' hl' heq'
    obtain ⟨l1, hl1, heq1⟩ := (mem_updateLabelDates _ _ _ _).mp hl'
    obtain ⟨l0, hl0, heq0⟩ := (mem_updateLabelDates _ _ _ _).mp hl1
    subst heq0
    subst heq1
    by_cases hil : (l0.id == lid) = true
    · have hid0 : l0.id = lid := by simpa using hil
      rw [if_pos hil] at heq' ⊢
      have hr : ¬((({ l0 with dates := arrayUnion l0.dates d } : Label).id == doc.labelId)
          = true) := by
        dsimp only
        rw [hid0]
        simp only [beq_iff_eq]
        exact Ne.symm hPrevNe
      rw [if_neg hr] at heq' ⊢
      dsimp only at heq' ⊢
      rcases (hmemA a').mp ha' with ⟨a, ha, hane, rfl⟩ | rfl
      · exact (mem_arrayUnion _ _ _).mpr (Or.inl (hc.2 a' ha l0 hl0 heq'))
      · dsimp only
        rw [hdocDate]
        exact mem_arrayUnion_self _ _
    · rw [if_neg hil] at heq' ⊢
      by_cases hip : (l0.id == doc.labelId) = true
      · rw [if_pos hip] at heq' ⊢
        dsimp only at heq' ⊢
        rcases (hmemA a').mp ha' with ⟨a, ha, hane, rfl⟩ | rfl
        · exact (mem_arrayRemove _ _ _).mpr
            ⟨hc.2 a' ha l0 hl0 heq', fun haddd => hane (hUniq a' ha haddd)⟩
        · exfalso
          dsimp only at heq'
          exact hil (by simp [heq'.symm])
      · rw [if_neg hip] at heq' ⊢
        rcases (hmemA a').mp ha' with ⟨a, ha, hane, rfl⟩ | rfl
        · exact hc.2 a' ha l0 hl0 heq'
        · exfalso
          dsimp only at heq'
          exact hil (by simp [heq'.symm])

/-- C2 (amended): for a well-formed store, `asignLabelToDay` preserves both
day-assignment uniqueness and the label date-list biconditional — a date is
in a label's `dates` list iff a day assignment for that date points at that
label — in every branch, including the error branches.  `deleteAssignment`
does NOT preserve the biconditional (see the counterexample): it removes
the assignment record but leaves the date in the label's `dates` list. -/
theorem asign_preserves_invariants (st : Store) (d lid : String)
    (hwf : wfStore st) (hu : uniqueDates st) (hc : consistent st) :
    uniqueDates (asignLabelToDay st d lid).1 ∧ consistent (asignLabelToDay st d lid).1 := by
  refine ⟨asign_preserves_uniqueDates st d lid hu, ?_⟩
  cases hL : findLabel st lid with
  | none =>
    rw [asign_label_missing_eq st d lid hL]
    exact hc
  | some L =>
    cases hA : findAssignment st d with
    | none => exact asign_create_consistent st d lid L hc hL hA
    | some doc =>
      have hidEq : L.id = lid := by
        have hx := List.find?_some (show st.labels.find? (fun l => l.id == lid) = some L from hL)
        simpa using hx
      have hLmem : L ∈ st.labels := List.mem_of_find?_eq_some hL
      have hdocMem : doc ∈ st.assignments := List.mem_of_find?_eq_some hA
      have hdocDate : doc.date = d := by
        have hx := List.find?_some hA
        simpa using hx
      have hInj : ∀ a ∈ st.assignments, a.id = doc.id → a = doc :=
        fun a ha hq => List.inj_on_of_nodup_map hwf.1 ha hdocMem hq
      have hUniq : ∀ a ∈ st.assignments, a.date = d → a = doc :=
        fun a ha hd' => eq_of_uniqueDates hu ha hdocMem (by rw [hd', hdocDate])
      rw [asign_update_eq st d lid L doc hL hA]
      by_cases hPrevEq : doc.labelId = lid
      · -- reassigning the same label: every write is a no-op on the model state
        have hdin : d ∈ L.dates := by
          have hx := hc.2 doc hdocMem L hLmem (hPrevEq.trans hidEq.symm)
          rwa [hdocDate] at hx
        have hcondPf : ¬((doc.labelId != "" && doc.labelId != lid) = true) := by
          simp [hPrevEq]
        rw [if_neg hcondPf]
        dsimp only
        have hmapid : st.assignments.map (fun a =>
            if a.id == doc.id then { a with labelId := lid } else a) = st.assignments := by
          have hcg : ∀ a ∈ st.assignments,
              (if a.id == doc.id then { a with labelId := lid } else a) = a := by
            intro a ha
            by_cases hq : (a.id == doc.id) = true
            · have haeq : a = doc := hInj a ha (by simpa using hq)
              subst haeq
              rw [if_pos hq, ← hPrevEq]
            · rw [if_neg hq]
          rw [List.map_congr_left hcg, List.map_id']
        have hstep2 : asignStep2 st d lid L doc = st := by
          unfold asignStep2 asignStep1
          rw [if_pos hdin, hmapid]
        rw [hstep2]
        exact hc
      · have hdnotin : d ∉ L.dates := by
          intro hdin
          obtain ⟨a, ha, had, hal⟩ := hc.1 L hLmem d hdin
          have haeq : a = doc := hUniq a ha had
          rw [haeq, hidEq] at hal
          exact hPrevEq hal
        have hstep2eq : asignStep2 st d lid L doc =
            { labels := updateLabelDates st.labels lid (fun ds => arrayUnion ds d),
              assignments := st.assignments.map (fun a =>
                if a.id == doc.id then { a with labelId := lid } else a),
              nextId := st.nextId } := by
          unfold asignStep2 asignStep1
          rw [if_neg hdnotin]
        by_cases hPrevEmpty : doc.labelId = ""
        · -- falsy previous id: the remove step is skipped, but no label can
          -- carry that id (label ids are non-empty), so nothing is lost
          have hcondPf : ¬((doc.labelId != "" && doc.labelId != lid) = true) := by
            simp [hPrevEmpty]
          rw [if_neg hcondPf]
          dsimp only
          rw [hstep2eq]
          have hnoprev : ∀ l ∈ updateLabelDates st.labels lid (fun ds => arrayUnion ds d),
              l.id ≠ doc.labelId := by
            intro l hl
            obtain ⟨l0, hl0, heq⟩ := (mem_updateLabelDates _ _ _ _).mp hl
            have hlid : l.id = l0.id := by
              rw [heq]
              split <;> rfl
            rw [hlid, hPrevEmpty]
            exact hwf.2.2 l0 hl0
          have hX := updateLabelDates_id
            (updateLabelDates st.labels lid (fun ds => arrayUnion ds d)) doc.labelId
            (fun ds => arrayRemove ds d) hnoprev
          have hcore := asign_update_consistent_core st d lid L doc hwf hu hc hL hA hPrevEq
          rw [hX] at hcore
          exact hcore
        · have hcondT : (doc.labelId != "" && doc.labelId != lid) = true := by
            simp [hPrevEmpty, hPrevEq]
          rw [if_pos hcondT]
          cases hfp : findLabel (asignStep2 st d lid L doc) doc.labelId with
          | none =>
            -- previous label no longer exists: the update() rejects, but the
            -- committed writes still satisfy the invariant
            dsimp only
            rw [hstep2eq]
            have hfp' : (updateLabelDates st.labels lid (fun ds => arrayUnion ds d)).find?
                (fun l => l.id == doc.labelId) = none := by
              have hx := hfp
              rw [hstep2eq] at hx
              exact hx
            rw [List.find?_eq_none] at hfp'
            have hnoprev : ∀ l ∈ updateLabelDates st.labels lid (fun ds => arrayUnion ds d),
                l.id ≠ doc.labelId := by
              intro l hl hbad
              exact hfp' l hl (by simp [hbad])
            have hX := updateLabelDates_id
              (updateLabelDates st.labels lid (fun ds => arrayUnion ds d)) doc.labelId
              (fun ds => arrayRemove ds d) hnoprev
            have hcore := asign_update_consistent_core st d lid L doc hwf hu hc hL hA hPrevEq
            rw [hX] at hcore
            exact hcore
          | some P =>
            dsimp only
            have hstores : ({ asignStep2 st d lid L doc with
                labels := updateLabelDates (asignStep2 st d lid L doc).labels doc.labelId
                  (fun ds => arrayRemove ds d) } : Store) =
                { labels := updateLabelDates
                    (updateLabelDates st.labels lid (fun ds => arrayUnion ds d)) doc.labelId
                    (fun ds => arrayRemove ds d),
                  assignments := st.assignments.map (fun a =>
                    if a.id == doc.id then { a with labelId := lid } else a),
                  nextId := st.nextId } := by
              rw [hstep2eq]
            rw [hstores]
            exact asign_update_consistent_core st d lid L doc hwf hu hc hL hA hPrevEq

/-- Witness for C2's amended theorem at a concrete well-formed store. -/
theorem asign_preserves_invariants_witness :
    uniqueDates (asignLabelToDay assignStore "2025-03-10" "L1").1 ∧
    consistent (asignLabelToDay assignStore "2025-03-10" "L1").1 :=
  asign_preserves_invariants assignStore "2025-03-10" "L1" (by decide) (by decide) (by decide)

/-- C2 counterexample: `deleteAssignment` does not preserve the biconditional
— on a consistent store it deletes the assignment but leaves the date in the
label's `dates` list, so the claim that every assignment mutation
(including `deleteAssignment`) maintains the invariant is false. -/
theorem deleteAssignment_breaks_consistency :
    uniqueDates delStore ∧ consistent delStore ∧
    ¬ consistent (deleteAssignment delStore "2025-03-10").1 :=
  ⟨by decide, by decide, by decide⟩

/-! ### Claim C7: month range -/

/-- C7: the month query computes the inclusive range from the first to the
calendar-aware last day of the month — `"2024-02"` gives `2024-02-01`
through `2024-02-29` (leap year), `"2023-02"` gives `2023-02-28` — and the
range filter considers exactly the assignments whose date lies in the
range. -/
theorem getAllLabelsFromMonth_range_correct :
    monthRangeOfInput "2024-02" = some ("2024-02-01", "2024-02-29") ∧
    monthRangeOfInput "2023-02" = some ("2023-02-01", "2023-02-28") ∧
    ∀ (st : Store) (s e : String) (a : Assignment),
      a ∈ assignmentsInRange st s e ↔ a ∈ st.assignments ∧ s ≤ a.date ∧ a.date ≤ e := by
  refine ⟨by decide, by decide, ?_⟩
  intro st s e a
  simp [assignmentsInRange, List.mem_filter, and_assoc]

/-! ### Claim C10: convertSets rewrite -/

/-- C10: every element of the rewritten `sets` array has `setType` `normal`
and `reps` the constant `"8-9"`; only `measure` depends on the legacy
`setType` (kg→kg, lbs→lbs, time→sec, distance→distance, steps→step,
anything else→kg) and `value` is preserved (as a string or null). -/
theorem convertSets_rewrites_sets (sets : List LegacySet) (s : LegacySet) (hs : s ∈ sets) :
    migrateSet s ∈ migrateSets sets ∧
    (migrateSet s).setType = "normal" ∧
    (migrateSet s).reps = some "8-9" ∧
    (migrateSet s).value = s.value ∧
    (s.setType = some "kg" → (migrateSet s).measure = "kg") ∧
    (s.setType = some "lbs" → (migrateSet s).measure = "lbs") ∧
    (s.setType = some "time" → (migrateSet s).measure = "sec") ∧
    (s.setType = some "distance" → (migrateSet s).measure = "distance") ∧
    (s.setType = some "steps" → (migrateSet s).measure = "step") ∧
    (s.setType ∉ ([some "kg", some "lbs", some "time", some "distance", some "steps"] :
        List (Option String)) → (migrateSet s).measure = "kg") := by
  refine ⟨List.mem_map_of_mem _ hs, rfl, rfl, rfl, ?_, ?_, ?_, ?_, ?_, ?_⟩ <;> intro h
  · simp [migrateSet, h]
  · simp [migrateSet, h]
  · simp [migrateSet, h]
  · simp [migrateSet, h]
  · simp [migrateSet, h]
  · unfold migrateSet
    simp only
    split
    · exact absurd (by simp_all) h
    · exact absurd (by simp_all) h
    · exact absurd (by simp_all) h
    · exact absurd (by simp_all) h
    · exact absurd (by simp_all) h
    · rfl

/-- Witness for C10 at a concrete legacy set. -/
theorem convertSets_rewrites_sets_witness :
    (migrateSet { setType := some "time", value := some "5", reps := some "12" }).measure = "sec" :=
  (convertSets_rewrites_sets
    [{ setType := some "time", value := some "5", reps := some "12" }] _
    (List.mem_singleton.mpr rfl)).2.2.2.2.2.2.1 rfl

/-! ### Claim C9: bulk write batching -/

theorem queueWrite_inv (bs : BatchState) (h : BatchInv bs) : BatchInv (queueWrite bs) := by
  obtain ⟨h1, h2⟩ := h
  unfold BatchInv queueWrite
  split
  · show (∀ b ∈ bs.committed ++ [bs.pending + 1], 0 < b ∧ b ≤ 450) ∧ (0 : Nat) < 450
    refine ⟨?_, by decide⟩
    intro b hb
    rw [List.mem_append] at hb
    rcases hb with hb | hb
    · exact h1 b hb
    · simp only [List.mem_singleton] at hb
      omega
  · show (∀ b ∈ bs.committed, 0 < b ∧ b ≤ 450) ∧ bs.pending + 1 < 450
    exact ⟨h1, by omega⟩

theorem foldl_batch_inv {α : Type} (step : BatchState → α → BatchState)
    (hstep : ∀ bs x, BatchInv bs → BatchInv (step bs x)) (l : List α) (bs : BatchState)
    (h : BatchInv bs) : BatchInv (l.foldl step bs) := by
  induction l generalizing bs with
  | nil => exact h
  | cons x t ih => exact ih _ (hstep bs x h)

theorem flushBatch_inv (bs : BatchState) (h : BatchInv bs) :
    (∀ b ∈ (flushBatch bs).committed, 0 < b ∧ b ≤ 450) ∧ (flushBatch bs).pending = 0 := by
  obtain ⟨h1, h2⟩ := h
  unfold flushBatch
  split
  · show (∀ b ∈ bs.committed ++ [bs.pending], 0 < b ∧ b ≤ 450) ∧ (0 : Nat) = 0
    refine ⟨?_, rfl⟩
    intro b hb
    rw [List.mem_append] at hb
    rcases hb with hb | hb
    · exact h1 b hb
    · simp only [List.mem_singleton] at hb
      omega
  · refine ⟨h1, by omega⟩

/-- C9: both migration scripts queue writes into batches of at most 450
operations, committing each batch (in order, one after the other — the model
appends each commit to `committed` before the next batch starts) and
flushing the remainder, for every possible number of input records. -/
theorem migration_batches_capped (logs : List (List LegacySet)) (docDates : List String)
    (today : String) :
    (∀ b ∈ (migrateExerciseLogsBatches logs).committed, 0 < b ∧ b ≤ 450) ∧
    (migrateExerciseLogsBatches logs).pending = 0 ∧
    (∀ b ∈ (deleteTodaysLogsPageBatches docDates today).committed, 0 < b ∧ b ≤ 450) ∧
    (deleteTodaysLogsPageBatches docDates today).pending = 0 := by
  have hinit : BatchInv { committed := [], pending := 0 } := by
    unfold BatchInv
    exact ⟨fun b hb => absurd hb (List.not_mem_nil b), by decide⟩
  have hstep1 : ∀ (bs : BatchState) (x : List LegacySet), BatchInv bs →
      BatchInv (if (migrateSets x).length > 0 then queueWrite bs else bs) := by
    intro bs x h
    split
    · exact queueWrite_inv bs h
    · exact h
  have hstep2 : ∀ (bs : BatchState) (x : String), BatchInv bs →
      BatchInv (if x == today then queueWrite bs else bs) := by
    intro bs x h
    split
    · exact queueWrite_inv bs h
    · exact h
  have h1 := flushBatch_inv _ (foldl_batch_inv
    (fun bs sets => if (migrateSets sets).length > 0 then queueWrite bs else bs)
    hstep1 logs _ hinit)
  have h2 := flushBatch_inv _ (foldl_batch_inv
    (fun bs d => if d == today then queueWrite bs else bs)
    hstep2 docDates _ hinit)
  exact ⟨h1.1, h1.2, h2.1, h2.2⟩

/-- Witness for C9: one queued write yields one committed batch of size 1. -/
theorem migration_batches_capped_witness : 0 < 1 ∧ 1 ≤ 450 :=
  (migration_batches_capped [[{ setType := none, value := none, reps := none }]]
    ["2026-01-01"] "2026-01-01").1 1 (by decide)

/-! ### Claim C6: deleteAssignment -/

/-- C6: `deleteAssignment` throws `NotFound` (leaving the store unchanged)
exactly when no assignment exists for the date; otherwise it deletes that
assignment record, keeps every other assignment, and leaves every label
document untouched. -/
theorem deleteAssignment_spec (st : Store) (date : String) :
    ((deleteAssignment st date).2 = .error .notFound ↔ ¬ ∃ a ∈ st.assignments, a.date = date) ∧
    ((¬ ∃ a ∈ st.assignments, a.date = date) → (deleteAssignment st date).1 = st) ∧
    ∀ doc, findAssignment st date = some doc →
      (deleteAssignment st date).2 = .ok (doc.id, date) ∧
      (deleteAssignment st date).1.labels = st.labels ∧
      doc ∉ (deleteAssignment st date).1.assignments ∧
      ∀ a ∈ st.assignments, a.id ≠ doc.id → a ∈ (deleteAssignment st date).1.assignments := by
  refine ⟨?_, ?_, ?_⟩
  · cases hfind : findAssignment st date with
    | none =>
      have hnone : ¬ ∃ a ∈ st.assignments, a.date = date := by
        unfold findAssignment at hfind
        rw [List.find?_eq_none] at hfind
        rintro ⟨a, ha, rfl⟩
        exact hfind a ha (by simp)
      simp [deleteAssignment, hfind, hnone]
    | some doc =>
      have hmem : doc ∈ st.assignments := List.mem_of_find?_eq_some hfind
      have hdate : doc.date = date := by
        have := List.find?_some hfind
        simpa using this
      have hex : ∃ a ∈ st.assignments, a.date = date := ⟨doc, hmem, hdate⟩
      simp [deleteAssignment, hfind, hex]
  · intro hnone
    have hfind : findAssignment st date = none := by
      unfold findAssignment
      rw [List.find?_eq_none]
      intro a ha hpa
      exact hnone ⟨a, ha, by simpa using hpa⟩
    simp [deleteAssignment, hfind]
  · intro doc hdoc
    simp only [deleteAssignment, hdoc]
    refine ⟨by trivial, by trivial, ?_, ?_⟩
    · simp [List.mem_filter]
    · intro a ha hne
      simp [List.mem_filter, ha, hne]

/-- Witness for C6: deleting the only assignment succeeds and leaves the
label (and its `dates` entry) in place. -/
theorem deleteAssignment_spec_witness :
    (deleteAssignment delStore "2025-03-10").1.labels = delStore.labels :=
  ((deleteAssignment_spec delStore "2025-03-10").2.2
    { id := 0, date := "2025-03-10", labelId := "L1" } (by decide)).2.1

/-! ### Claim C5: orphan self-heal -/

/-- C5 (amended): for `getLabelAsignmentByDate`, when the assignment's label
no longer exists the call returns null, deletes the dangling assignment,
and touches nothing else. (`getEmojiAsignmentByDate` does NOT behave this
way — see the counterexample.) -/
theorem getLabelAsignment_selfHeal (st : Store) (date : String) (doc : Assignment)
    (hfind : findAssignment st date = some doc)
    (hmiss : findLabel st doc.labelId = none) :
    (getLabelAsignmentByDate st date).2 = none ∧
    (getLabelAsignmentByDate st date).1.labels = st.labels ∧
    doc ∉ (getLabelAsignmentByDate st date).1.assignments ∧
    ∀ a ∈ st.assignments, a.id ≠ doc.id → a ∈ (getLabelAsignmentByDate st date).1.assignments := by
  simp only [getLabelAsignmentByDate, hfind, hmiss]
  refine ⟨by trivial, by trivial, ?_, ?_⟩
  · simp [List.mem_filter]
  · intro a ha hne
    simp [List.mem_filter, ha, hne]

/-- Witness for C5's amended theorem: concrete dangling assignment. -/
theorem getLabelAsignment_selfHeal_witness :
    (getLabelAsignmentByDate danglingStore "2025-03-10").2 = none :=
  (getLabelAsignment_selfHeal danglingStore "2025-03-10"
    { id := 0, date := "2025-03-10", labelId := "L9" } (by decide) (by decide)).1

/-- C5 counterexample: `getEmojiAsignmentByDate` on a dangling assignment
returns the assignment without emoji data (not null) and deletes nothing,
so the claim is false for the emoji variant. -/
theorem getEmojiAsignment_keeps_dangling :
    (getEmojiAsignmentByDate danglingStore "2025-03-10").2 ≠ none ∧
    (getEmojiAsignmentByDate danglingStore "2025-03-10").2 =
      some (.bare 0 "2025-03-10" "L9") ∧
    (getEmojiAsignmentByDate danglingStore "2025-03-10").1 = danglingStore := by
  refine ⟨by decide, rfl, rfl⟩

/-! ### Claim C8: editLabel partial patch -/

/-- C8 (amended): `editLabel` writes only the `label` and `description`
fields of the request; a `dates` or `muscleGroups` value supplied in the
request is ignored, and every other stored field (and every other label
document, and the assignments) keeps its previous value. -/
theorem editLabel_patches_label_description_only (st : Store) (input : LabelEditInput)
    (L : Label) (hL : findLabel st input.id = some L) :
    (editLabel st input).2 =
      .ok { L with label := input.label, description := input.description } ∧
    (editLabel st input).1.assignments = st.assignments ∧
    (editLabel st input).1.nextId = st.nextId ∧
    (∀ l ∈ st.labels, l.id ≠ input.id → l ∈ (editLabel st input).1.labels) ∧
    ∀ L', (editLabel st input).2 = .ok L' →
      L'.dates = L.dates ∧ L'.muscleGroups = L.muscleGroups := by
  have hL' : st.labels.find? (fun l => l.id == input.id) = some L := hL
  have hid : (L.id == input.id) = true := by
    have h2 := List.find?_some hL'
    exact h2
  have hmap : (st.labels.map (editPatch input)).find? (fun l => l.id == input.id) =
      some (editPatch input L) := by
    rw [find?_map_of_id st.labels (editPatch input) _
          (fun l => by unfold editPatch; split <;> rfl),
        hL']
    rfl
  have hpatch : editPatch input L =
      { L with label := input.label, description := input.description } := by
    unfold editPatch
    rw [if_pos hid]
  have heq : editLabel st input =
      ({ st with labels := st.labels.map (editPatch input) },
       .ok { L with label := input.label, description := input.description }) := by
    unfold editLabel findLabel
    rw [hL']
    dsimp only
    rw [hmap, hpatch]
  rw [heq]
  refine ⟨rfl, rfl, rfl, ?_, ?_⟩
  · intro l hl hne
    refine List.mem_map.mpr ⟨l, hl, ?_⟩
    unfold editPatch
    rw [if_neg (by simp [hne])]
  · intro L' hL'2
    cases hL'2
    exact ⟨rfl, rfl⟩

/-- Witness for C8's amended theorem at a concrete store and request. -/
theorem editLabel_patches_witness :
    (editLabel editStore editInputEx).1.assignments = editStore.assignments :=
  (editLabel_patches_label_description_only editStore editInputEx
    { id := "L1", label := "A", description := "a", dates := [], muscleGroups := [] }
    (by decide)).2.1

/-- C8 counterexample: the request supplies `dates = ["2025-01-01"]`, yet the
stored label's `dates` stays `[]` — a supplied `dates` value is not
written. -/
theorem editLabel_drops_supplied_dates :
    editInputEx.dates = some ["2025-01-01"] ∧
    findLabel (editLabel editStore editInputEx).1 "L1" =
      some { id := "L1", label := "A", description := "a", dates := [], muscleGroups := [] } := by
  refine ⟨rfl, by decide⟩


